import Mathlib

/-!
Shallow embedding of the `eventstore` Go library (BadgerEventStore over the
badger ordered key-value engine, plus the ULID-based identifier generator)
for checking the natural-language specification against the code.

Conventions of the embedding:
* Byte strings (Go `[]byte` / `string` keys) are `List Nat` of byte values.
* The badger keyspace is modelled as a list of key/value pairs kept in
  strictly increasing lexicographic key order, which is the engine invariant
  the store's seek/prefix iteration relies on.  `txn.Set` is `setKV`
  (ordered insert-or-replace).  Iteration with `Seek(p)` followed by
  `ValidForPrefix(p)` is `seekScan`.
* `time.Time` values are modelled by their `UnixNano` value as a `Nat`.
* The process PRNG pipeline (`rand.NewSource(seed)` / `ulid.Monotonic`)
  is an external collaborator; it is modelled by an unconstrained function
  `e : Nat → Nat` from the seed (`t.UnixNano()`) to the 80-bit entropy block
  the freshly seeded source yields.  `NewId` in `idgenerator.go` builds a
  brand-new source from the timestamp on every call, so the identifier is a
  pure function of the timestamp once `e` is fixed.
* Fallible Go code returns `Except`; the one reachable Go panic
  (`reflect.New(nil)` inside `makeInstance`) is modelled by a dedicated
  outcome constructor, kept distinct from returned errors.
-/

namespace EventStore

/-- Byte strings: Go `[]byte` and `string` values, as lists of byte values. -/
abbrev Bytes := List Nat

/-- Strict bytewise lexicographic order on byte strings; this is the key
order of the badger engine (shorter strings sort before their extensions). -/
def lexLt : Bytes → Bytes → Bool
  | _, [] => false
  | [], _ :: _ => true
  | a :: as, b :: bs => a < b || (a == b && lexLt as bs)

/-- `startsWith p k` holds when `p` is a prefix of `k` (badger's
`ValidForPrefix`/`bytes.HasPrefix` test). -/
def startsWith : Bytes → Bytes → Bool
  | [], _ => true
  | _ :: _, [] => false
  | p :: ps, k :: ks => p == k && startsWith ps ks

/-- The Crockford base32 alphabet "0123456789ABCDEFGHJKMNPQRSTVWXYZ" used by
`ulid.ULID.MarshalText`, as ASCII byte values. -/
def crockfordAlphabet : List Nat :=
  [48, 49, 50, 51, 52, 53, 54, 55, 56, 57,
   65, 66, 67, 68, 69, 70, 71, 72, 74, 75,
   77, 78, 80, 81, 82, 83, 84, 86, 87, 88, 89, 90]

/-- `ulid.Timestamp t = uint64(t.Unix())*1000 + uint64(t.Nanosecond()/1e6)`,
i.e. the millisecond timestamp, from the `UnixNano` value. -/
def ulidTimestamp (tNano : Nat) : Nat := tNano / 1000000

/-- `NewId` from `idgenerator.go`:

    source := rand.NewSource(t.UnixNano())
    rnd := rand.New(source)
    entropy := ulid.Monotonic(rnd, 0)
    return ulid.MustNew(ulid.Timestamp(t), entropy)

A ULID is the 128-bit value `timestamp(48 bits) || entropy(80 bits)`, here a
`Nat`.  The entropy source is freshly seeded from `t.UnixNano()` on every
call, so the 80 entropy bits are `e tNano % 2 ^ 80` for the collaborator
function `e` modelling the PRNG; equal timestamps give equal identifiers.
`ulid.MustNew` panics when the millisecond timestamp exceeds `2 ^ 48 - 1`;
theorems quantifying over timestamps carry that bound as a hypothesis. -/
def NewId (e : Nat → Nat) (tNano : Nat) : Nat :=
  ulidTimestamp tNano * 2 ^ 80 + e tNano % 2 ^ 80

/-- The `n`-digit big-endian base-32 rendering of `id` through the Crockford
alphabet. -/
def b32digits (n id : Nat) : Bytes :=
  (List.range n).map (fun i => crockfordAlphabet.getD (id / 32 ^ (n - 1 - i) % 32) 0)

/-- `ulid.ULID.MarshalText`: the fixed-length 26-character Crockford base32
big-endian rendering of the 128-bit identifier (26 × 5 = 130 bits). -/
def ulidText (id : Nat) : Bytes := b32digits 26 id

/-- Reassemble the numeric value of a base-32 text (left fold over digit
positions of the Crockford alphabet). -/
def textVal (t : Bytes) : Nat :=
  t.foldl (fun acc c => acc * 32 + crockfordAlphabet.indexOf c) 0

/-- A Go value as handled by the store: a dynamic type name (what
`fmt.Sprintf("%T", v)` yields) plus its contents, abstracted to a `Nat`. -/
structure Val where
  ty : String
  data : Nat
deriving DecidableEq, Repr

/-- `typeName` from the source: `fmt.Sprintf("%T", t)`. -/
def typeName (v : Val) : String := v.ty

/-- Error kinds surfaced by the Go code paths modelled here. -/
inductive GoErr
  | gobNotRegistered
  | gobErr
  | jsonErr
deriving DecidableEq, Repr

/-- Equality of Go error/result pairs is decidable (used to evaluate the
model on concrete inputs). -/
instance {e a : Type} [DecidableEq e] [DecidableEq a] : DecidableEq (Except e a) := fun x y =>
  match x, y with
  | .ok u, .ok w =>
    if h : u = w then isTrue (by rw [h]) else isFalse (fun hc => by cases hc; exact h rfl)
  | .error u, .error w =>
    if h : u = w then isTrue (by rw [h]) else isFalse (fun hc => by cases hc; exact h rfl)
  | .ok _, .error _ => isFalse (fun hc => by cases hc)
  | .error _, .ok _ => isFalse (fun hc => by cases hc)

/-- The bytes produced by `gob` for one payload: either a well-formed
encoding (carrying the concrete type name and the contents, which `gob`
embeds and reconstructs exactly for registered types) or malformed bytes. -/
inductive GobBytes
  | wf (ty : String) (data : Nat)
  | malformed (n : Nat)
deriving DecidableEq, Repr

/-- `gob.Encoder.Encode(&content)` on an interface value: fails with
"type not registered for interface" unless the concrete type was passed to
`gob.Register`. -/
def gobEncode (gobReg : List String) (v : Val) : Except GoErr GobBytes :=
  if v.ty ∈ gobReg then .ok (.wf v.ty v.data) else .error .gobNotRegistered

/-- `gob.Decoder.Decode(&v)` into an interface: reconstructs the encoded
value exactly when its concrete type name is in the gob registry, and
errors on malformed bytes or an unregistered wire type. -/
def gobDecode (gobReg : List String) : GobBytes → Except GoErr Val
  | .wf ty data => if ty ∈ gobReg then .ok ⟨ty, data⟩ else .error .gobNotRegistered
  | .malformed _ => .error .gobErr

/-- The stored envelope, `Record` from the source (fields `Id`, `Timestamp`,
`Type`, `Content`; `Type` is renamed `ty` because it is a Lean keyword). -/
structure Record where
  id : Nat
  timestamp : Nat
  ty : String
  content : GobBytes
deriving DecidableEq, Repr

/-- The bytes stored as a badger value: either a well-formed
`json.Marshal` rendering of a `Record` or malformed bytes. -/
inductive JsonBytes
  | wf (r : Record)
  | malformed (n : Nat)
deriving DecidableEq, Repr

/-- `json.Marshal(record)`: always succeeds for this struct and round-trips
the envelope. -/
def jsonMarshal (r : Record) : JsonBytes := .wf r

/-- `json.Unmarshal(val, &record)`. -/
def jsonUnmarshal : JsonBytes → Except GoErr Record
  | .wf r => .ok r
  | .malformed _ => .error .jsonErr

/-- The badger keyspace: key/value pairs in strictly increasing
lexicographic key order. -/
abbrev DB := List (Bytes × JsonBytes)

/-- The engine invariant: keys strictly increasing in `lexLt` order. -/
def DBSorted (d : DB) : Prop := d.Pairwise (fun a b => lexLt a.1 b.1 = true)

/-- `txn.Set(key, value)` followed by commit: ordered insert, replacing the
value when the key is already present. -/
def setKV (k : Bytes) (v : JsonBytes) : DB → DB
  | [] => [(k, v)]
  | (k', v') :: rest =>
    if lexLt k k' then (k, v) :: (k', v') :: rest
    else if k = k' then (k, v) :: rest
    else (k', v') :: setKV k v rest

/-- Iteration with `it.Seek(p)` then `for it.ValidForPrefix(p) { it.Next() }`:
skip to the first key `≥ p`, then walk while the key still has prefix `p`. -/
def seekScan (p : Bytes) (d : DB) : DB :=
  (d.dropWhile (fun kv => lexLt kv.1 p)).takeWhile (fun kv => startsWith p kv.1)

/-- `BadgerEventStore` state: the lazily opened engine handle `db`, the
per-store `typeRegistery` map (modelled by its key set), and the process
gob registry as visible to this store (`gob.Register` is process-global in
Go; every claim here exercises a single store, so it is carried alongside).
The file-store configuration fields (`RootDir`, encryption) only
parameterize the external engine open and are not modelled. -/
structure BadgerEventStore where
  memoryOnly : Bool
  db : Option DB
  typeRegistery : List String
  gobReg : List String
deriving DecidableEq, Repr

/-- `MemoryStore()` constructor (fresh gob registry view). -/
def MemoryStore : BadgerEventStore :=
  { memoryOnly := true, db := none, typeRegistery := [], gobReg := [] }

/-- `kvstore()`: return the open handle, lazily opening on first use.
Opening the in-memory engine (`badger.DefaultOptions("").WithInMemory`)
yields a fresh empty keyspace; that is the open modelled here (all claims
exercise `MemoryStore` or a store whose handle is already open). -/
def kvstore (s : BadgerEventStore) : DB × BadgerEventStore :=
  match s.db with
  | some d => (d, s)
  | none => ([], { s with db := some [] })

/-- `Register(t)`: `gob.Register(t)` plus `typeRegistery[name] = TypeOf(t)`. -/
def Register (s : BadgerEventStore) (t : Val) : BadgerEventStore :=
  { s with gobReg := typeName t :: s.gobReg,
           typeRegistery := typeName t :: s.typeRegistery }

/-- `Append(aggregate, content)`: build the envelope with a fresh identifier
from `now := time.Now().UTC()`, gob-encode the payload (failing before any
engine interaction when the type is unregistered), form the key
`aggregate ++ ":" ++ id.MarshalText()`, json-marshal the envelope, and
commit a single `txn.Set`. -/
def Append (e : Nat → Nat) (s : BadgerEventStore) (aggregate : Bytes)
    (content : Val) (now : Nat) : Except GoErr Unit × BadgerEventStore :=
  let id := NewId e now
  match gobEncode s.gobReg content with
  | .error ex => (.error ex, s)
  | .ok cBytes =>
    let record : Record := ⟨id, now, typeName content, cBytes⟩
    let key := aggregate ++ 58 :: ulidText id
    let value := jsonMarshal record
    let (d, s1) := kvstore s
    (.ok (), { s1 with db := some (setKV key value d) })

/-- `makeInstance(name)` is `reflect.New(b.typeRegistery[name]).Elem()`; a
name absent from the map gives the nil `reflect.Type`, and `reflect.New(nil)`
panics — `none` models that panic, `some ()` the constructed zero value. -/
def makeInstance (s : BadgerEventStore) (name : String) : Option Unit :=
  if name ∈ s.typeRegistery then some () else none

/-- Outcome of decoding one stored item inside `Read`'s scan loop. -/
inductive DOut
  | ok (v : Val)
  | goError (e : GoErr)
  | panicNewNil
deriving DecidableEq, Repr

/-- Outcome of a whole `Read` call: the returned list, a returned error, or
a propagated Go panic (which returns nothing at all). -/
inductive ROut
  | ok (vs : List Val)
  | goError (e : GoErr)
  | panicNewNil
deriving DecidableEq, Repr

/-- The per-item body of `Read`'s loop: `json.Unmarshal` the envelope, call
`makeInstance(record.Type)` (panicking when the tag is unregistered), then
gob-decode the payload bytes. -/
def decodeRec (s : BadgerEventStore) (b : JsonBytes) : DOut :=
  match jsonUnmarshal b with
  | .error _ => .goError .jsonErr
  | .ok record =>
    match makeInstance s record.ty with
    | none => .panicNewNil
    | some _ =>
      match gobDecode s.gobReg record.content with
      | .error _ => .goError .gobErr
      | .ok v => .ok v

/-- `Read`'s iteration: collect decoded values in scan order, aborting the
whole call at the first failure (returned error or panic). -/
def readLoop (s : BadgerEventStore) : List JsonBytes → ROut
  | [] => .ok []
  | b :: rest =>
    match decodeRec s b with
    | .panicNewNil => .panicNewNil
    | .goError ex => .goError ex
    | .ok v =>
      match readLoop s rest with
      | .ok vs => .ok (v :: vs)
      | other => other

/-- `Read(aggregate)`: prefix-scan `aggregate ++ ":"` in a read-only
transaction and decode every item in key order. -/
def Read (s : BadgerEventStore) (aggregate : Bytes) : ROut × BadgerEventStore :=
  let (d, s1) := kvstore s
  (readLoop s1 ((seekScan (aggregate ++ [58]) d).map Prod.snd), s1)

/-- `ListKeys()`: every key in the store, keys-only full scan. -/
def ListKeys (s : BadgerEventStore) : Except GoErr (List Bytes) × BadgerEventStore :=
  let (d, s1) := kvstore s
  (.ok (d.map Prod.fst), s1)

/-- `ListKeysForAggregate(aggregate)`: keys-only prefix scan. -/
def ListKeysForAggregate (s : BadgerEventStore) (aggregate : Bytes) :
    Except GoErr (List Bytes) × BadgerEventStore :=
  let (d, s1) := kvstore s
  (.ok ((seekScan (aggregate ++ [58]) d).map Prod.fst), s1)

/-- `Close()`: close and clear the handle when open, no-op success
otherwise (the engine close succeeds for the stores modelled here). -/
def Close (s : BadgerEventStore) : Except GoErr Unit × BadgerEventStore :=
  match s.db with
  | none => (.ok (), s)
  | some _ => (.ok (), { s with db := none })

/-! ### Order and scan lemmas -/

theorem lexLt_irrefl (a : Bytes) : lexLt a a = false := by
  induction a with
  | nil => rfl
  | cons x xs ih => simp [lexLt, ih]

theorem lexLt_trans {a : Bytes} : ∀ {b c : Bytes},
    lexLt a b = true → lexLt b c = true → lexLt a c = true := by
  induction a with
  | nil =>
    intro b c hab hbc
    cases c with
    | nil => cases b <;> simp [lexLt] at hab hbc
    | cons z zs => simp [lexLt]
  | cons x xs ih =>
    intro b c hab hbc
    cases b with
    | nil => simp [lexLt] at hab
    | cons y ys =>
      cases c with
      | nil => simp [lexLt] at hbc
      | cons z zs =>
        simp only [lexLt, Bool.or_eq_true, Bool.and_eq_true, beq_iff_eq,
          decide_eq_true_eq] at hab hbc ⊢
        rcases hab with h1 | ⟨hxy, h1⟩ <;> rcases hbc with h2 | ⟨hyz, h2⟩
        · exact Or.inl (Nat.lt_trans h1 h2)
        · exact Or.inl (hyz ▸ h1)
        · exact Or.inl (hxy ▸ h2)
        · exact Or.inr ⟨hxy.trans hyz, ih h1 h2⟩

theorem lexLt_eq_of_not {a : Bytes} : ∀ {b : Bytes},
    lexLt a b = false → lexLt b a = false → a = b := by
  induction a with
  | nil =>
    intro b h1 _
    cases b with
    | nil => rfl
    | cons y ys => simp [lexLt] at h1
  | cons x xs ih =>
    intro b h1 h2
    cases b with
    | nil => simp [lexLt] at h2
    | cons y ys =>
      simp only [lexLt, Bool.or_eq_false_iff, Bool.and_eq_false_iff,
        decide_eq_false_iff_not, beq_eq_false_iff_ne, ne_eq] at h1 h2
      have hxy : x = y := by omega
      subst hxy
      rcases h1.2 with hc | hc
      · exact absurd rfl hc
      · rcases h2.2 with hc' | hc'
        · exact absurd rfl hc'
        · rw [ih hc hc']

theorem startsWith_not_lexLt {p : Bytes} : ∀ {k : Bytes},
    startsWith p k = true → lexLt k p = false := by
  induction p with
  | nil => intro k _; cases k <;> rfl
  | cons x xs ih =>
    intro k h
    cases k with
    | nil => simp [startsWith] at h
    | cons y ys =>
      simp only [startsWith, Bool.and_eq_true, beq_iff_eq] at h
      obtain ⟨hxy, h2⟩ := h
      subst hxy
      simp [lexLt, Nat.lt_irrefl, ih h2]

theorem startsWith_between {p : Bytes} : ∀ {k1 k2 : Bytes},
    lexLt k1 p = false → startsWith p k1 = false → startsWith p k2 = true →
    lexLt k2 k1 = true := by
  induction p with
  | nil => intro k1 k2 _ h2 _; simp [startsWith] at h2
  | cons x xs ih =>
    intro k1 k2 h1 h2 h3
    cases k1 with
    | nil => simp [lexLt] at h1
    | cons a as =>
      cases k2 with
      | nil => simp [startsWith] at h3
      | cons b bs =>
        simp only [startsWith, Bool.and_eq_true, beq_iff_eq] at h3
        obtain ⟨hxb, h3'⟩ := h3
        subst hxb
        simp only [lexLt, Bool.or_eq_false_iff, Bool.and_eq_false_iff,
          decide_eq_false_iff_not, beq_eq_false_iff_ne, ne_eq] at h1
        simp only [startsWith, Bool.and_eq_false_iff,
          beq_eq_false_iff_ne, ne_eq] at h2
        simp only [lexLt, Bool.or_eq_true, Bool.and_eq_true, beq_iff_eq,
          decide_eq_true_eq]
        rcases Nat.lt_trichotomy x a with hlt | heq | hgt
        · exact Or.inl hlt
        · subst heq
          refine Or.inr ⟨rfl, ?_⟩
          rcases h1.2 with hc | hc
          · exact absurd rfl hc
          · rcases h2 with hc' | hc'
            · exact absurd rfl hc'
            · exact ih hc hc' h3'
        · exact absurd hgt h1.1

theorem sorted_rest {kv : Bytes × JsonBytes} {rest : DB}
    (h : DBSorted (kv :: rest)) :
    (∀ b ∈ rest, lexLt kv.1 b.1 = true) ∧ DBSorted rest :=
  List.pairwise_cons.mp h

theorem takeWhile_filter_aux (p : Bytes) : ∀ (l : DB), DBSorted l →
    (∀ kv ∈ l, lexLt kv.1 p = false) →
    l.takeWhile (fun kv => startsWith p kv.1) =
      l.filter (fun kv => startsWith p kv.1) := by
  intro l
  induction l with
  | nil => intro _ _; rfl
  | cons kv rest ih =>
    intro hs hall
    have hpair := sorted_rest hs
    cases hsw : startsWith p kv.1 with
    | true =>
      simp only [List.takeWhile_cons, List.filter_cons, hsw, if_true]
      rw [ih hpair.2 (fun b hb => hall b (List.mem_cons_of_mem _ hb))]
    | false =>
      have hrest : rest.filter (fun kv => startsWith p kv.1) = [] := by
        rw [List.filter_eq_nil_iff]
        intro b hb
        simp only [Bool.not_eq_true]
        cases hc : startsWith p b.1 with
        | false => rfl
        | true =>
          have hlt := startsWith_between (hall kv (by simp)) hsw hc
          have := lexLt_trans hlt (hpair.1 b hb)
          rw [lexLt_irrefl] at this
          exact absurd this (by simp)
      simp [List.takeWhile_cons, List.filter_cons, hsw, hrest]

theorem seekScan_eq_filter (p : Bytes) : ∀ (d : DB), DBSorted d →
    seekScan p d = d.filter (fun kv => startsWith p kv.1) := by
  intro d
  induction d with
  | nil => intro _; rfl
  | cons kv rest ih =>
    intro hs
    have hpair := sorted_rest hs
    cases hlt : lexLt kv.1 p with
    | true =>
      have hsw : startsWith p kv.1 = false := by
        cases hc : startsWith p kv.1 with
        | false => rfl
        | true => rw [startsWith_not_lexLt hc] at hlt; exact absurd hlt (by simp)
      rw [seekScan, List.dropWhile_cons]
      simp only [hlt, if_true, List.filter_cons, hsw]
      exact ih hpair.2
    | false =>
      have hall : ∀ b ∈ (kv :: rest), lexLt b.1 p = false := by
        intro b hb
        rcases List.mem_cons.mp hb with rfl | hb'
        · exact hlt
        · cases hc : lexLt b.1 p with
          | false => rfl
          | true =>
            have := lexLt_trans (hpair.1 b hb') hc
            rw [hlt] at this
            exact absurd this (by simp)
      rw [seekScan, List.dropWhile_cons]
      simp only [hlt, if_false, Bool.false_eq_true, ↓reduceIte]
      exact takeWhile_filter_aux p (kv :: rest) hs hall

/-! ### setKV lemmas -/

theorem mem_setKV {k : Bytes} {v : JsonBytes} : ∀ {d : DB} {kv : Bytes × JsonBytes},
    kv ∈ setKV k v d → kv = (k, v) ∨ kv ∈ d := by
  intro d
  induction d with
  | nil => intro kv h; simp [setKV] at h; exact Or.inl h
  | cons hd rest ih =>
    obtain ⟨k', v'⟩ := hd
    intro kv h
    rw [setKV] at h
    by_cases h1 : lexLt k k' = true
    · simp only [h1, if_true] at h
      rcases List.mem_cons.mp h with rfl | h'
      · exact Or.inl rfl
      · exact Or.inr h'
    · simp only [h1, if_false] at h
      by_cases h2 : k = k'
      · simp only [h2, if_true] at h
        rcases List.mem_cons.mp h with rfl | h'
        · exact Or.inl (by rw [h2])
        · exact Or.inr (List.mem_cons_of_mem _ h')
      · simp only [h2, if_false] at h
        rcases List.mem_cons.mp h with rfl | h'
        · exact Or.inr (List.mem_cons_self _ _)
        · rcases ih h' with h'' | h''
          · exact Or.inl h''
          · exact Or.inr (List.mem_cons_of_mem _ h'')

theorem setKV_sorted {k : Bytes} {v : JsonBytes} : ∀ {d : DB},
    DBSorted d → DBSorted (setKV k v d) := by
  intro d
  induction d with
  | nil => intro _; simp [setKV, DBSorted]
  | cons hd rest ih =>
    obtain ⟨k', v'⟩ := hd
    intro hs
    have hpair := sorted_rest hs
    rw [setKV]
    by_cases h1 : lexLt k k' = true
    · simp only [h1, if_true]
      refine List.pairwise_cons.mpr ⟨?_, hs⟩
      intro b hb
      rcases List.mem_cons.mp hb with rfl | hb'
      · exact h1
      · exact lexLt_trans h1 (hpair.1 b hb')
    · simp only [h1, if_false]
      by_cases h2 : k = k'
      · simp only [h2, if_true]
        subst h2
        exact List.pairwise_cons.mpr ⟨fun b hb => hpair.1 b hb, hpair.2⟩
      · simp only [h2, if_false]
        have h1' : lexLt k k' = false := by
          cases hc : lexLt k k' with
          | false => rfl
          | true => exact absurd hc h1
        have hk'k : lexLt k' k = true := by
          cases hc : lexLt k' k with
          | true => rfl
          | false => exact absurd (lexLt_eq_of_not h1' hc) h2
        refine List.pairwise_cons.mpr ⟨?_, ih hpair.2⟩
        intro b hb
        rcases mem_setKV hb with rfl | hb'
        · exact hk'k
        · exact hpair.1 b hb'

theorem setKV_keys_perm {k : Bytes} {v : JsonBytes} : ∀ {d : DB},
    k ∉ d.map Prod.fst →
    ((setKV k v d).map Prod.fst).Perm (k :: d.map Prod.fst) := by
  intro d
  induction d with
  | nil => intro _; simp [setKV]
  | cons hd rest ih =>
    obtain ⟨k', v'⟩ := hd
    intro hmem
    simp only [List.map_cons, List.mem_cons, not_or] at hmem
    rw [setKV]
    by_cases h1 : lexLt k k' = true
    · simp [h1]
    · simp only [h1, if_false, hmem.1, ite_false]
      have hperm := ih hmem.2
      simp only [List.map_cons]
      exact (hperm.cons k').trans (List.Perm.swap k k' _)

theorem filter_setKV_neg {P : Bytes → Bool} {k : Bytes} {v : JsonBytes}
    (hk : P k = false) : ∀ {d : DB},
    (setKV k v d).filter (fun kv => P kv.1) = d.filter (fun kv => P kv.1) := by
  intro d
  induction d with
  | nil => simp [setKV, hk]
  | cons hd rest ih =>
    obtain ⟨k', v'⟩ := hd
    rw [setKV]
    by_cases h1 : lexLt k k' = true
    · simp [h1, List.filter_cons, hk]
    · by_cases h2 : k = k'
      · subst h2
        simp [h1, List.filter_cons, hk]
      · simp only [h1, if_false, h2, ite_false]
        cases h3 : P k' with
        | true => simp [List.filter_cons, h3, ih]
        | false => simp [List.filter_cons, h3, ih]

theorem filter_setKV_pos {P : Bytes → Bool} {k : Bytes} {v : JsonBytes}
    (hk : P k = true) : ∀ {d : DB}, (∀ kv ∈ d, P kv.1 = false) →
    (setKV k v d).filter (fun kv => P kv.1) = [(k, v)] := by
  intro d
  induction d with
  | nil => intro _; simp [setKV, hk]
  | cons hd rest ih =>
    obtain ⟨k', v'⟩ := hd
    intro hall
    have hk' : P k' = false := hall (k', v') (by simp)
    rw [setKV]
    by_cases h1 : lexLt k k' = true
    · simp only [h1, if_true, List.filter_cons, hk, if_true, hk']
      simp only [Bool.false_eq_true, ↓reduceIte]
      have : rest.filter (fun kv => P kv.1) = [] := by
        rw [List.filter_eq_nil_iff]
        intro b hb
        simp [hall b (List.mem_cons_of_mem _ hb)]
      rw [this]
    · by_cases h2 : k = k'
      · rw [h2] at hk
        rw [hk] at hk'
        exact absurd hk' (by simp)
      · simp only [h1, if_false, h2, ite_false, Bool.false_eq_true, ↓reduceIte]
        have hrw : List.filter (fun kv => P kv.1) ((k', v') :: setKV k v rest) =
            List.filter (fun kv => P kv.1) (setKV k v rest) := by
          simp [List.filter_cons, hk']
        rw [hrw]
        exact ih (fun b hb => hall b (List.mem_cons_of_mem _ hb))

/-! ### Key shape lemmas -/

theorem startsWith_append (p t : Bytes) : startsWith p (p ++ t) = true := by
  induction p with
  | nil => rfl
  | cons x xs ih => simp [startsWith, ih]

theorem startsWith_mem {p : Bytes} : ∀ {k : Bytes},
    startsWith p k = true → ∀ x ∈ p, x ∈ k := by
  induction p with
  | nil => simp
  | cons a ps ih =>
    intro k h x hx
    cases k with
    | nil => simp [startsWith] at h
    | cons b ks =>
      simp only [startsWith, Bool.and_eq_true, beq_iff_eq] at h
      rcases List.mem_cons.mp hx with rfl | hx'
      · rw [h.1]; exact List.mem_cons_self _ _
      · exact List.mem_cons_of_mem _ (ih h.2 x hx')

theorem startsWith_snoc_avoid {c : Nat} : ∀ {q a t : Bytes},
    (∀ x ∈ t, x ≠ c) → startsWith (q ++ [c]) (a ++ c :: t) = true →
    startsWith (q ++ [c]) (a ++ [c]) = true := by
  intro q
  induction q with
  | nil =>
    intro a t _ h
    cases a with
    | nil => simp [startsWith]
    | cons x as =>
      simp only [List.nil_append, List.cons_append, startsWith,
        Bool.and_eq_true, beq_iff_eq] at h ⊢
      exact ⟨h.1, trivial⟩
  | cons q0 qs ih =>
    intro a t ht h
    cases a with
    | nil =>
      exfalso
      simp only [List.nil_append, List.cons_append, startsWith,
        Bool.and_eq_true, beq_iff_eq] at h
      exact ht c (startsWith_mem h.2 c (by simp)) rfl
    | cons x as =>
      simp only [List.cons_append, startsWith, Bool.and_eq_true, beq_iff_eq] at h ⊢
      exact ⟨h.1, ih ht h.2⟩

theorem ulidText_length (id : Nat) : (ulidText id).length = 26 := by
  simp [ulidText, b32digits]

theorem ulidText_no_colon (id : Nat) : ∀ x ∈ ulidText id, x ≠ 58 := by
  intro x hx
  simp only [ulidText, b32digits, List.mem_map, List.mem_range] at hx
  obtain ⟨i, _, rfl⟩ := hx
  have hlt : id / 32 ^ (26 - 1 - i) % 32 < 32 := Nat.mod_lt _ (by norm_num)
  have hall : ∀ j < 32, crockfordAlphabet.getD j 0 ≠ 58 := by decide
  exact hall _ hlt

theorem textVal_b32digits : ∀ (n id : Nat), id < 32 ^ n →
    textVal (b32digits n id) = id := by
  intro n
  induction n with
  | zero =>
    intro id h
    simp only [pow_zero, Nat.lt_one_iff] at h
    simp [b32digits, textVal, h]
  | succ n ih =>
    intro id h
    rw [b32digits, List.range_succ, List.map_append]
    have hmap : (List.range n).map
        (fun i => crockfordAlphabet.getD (id / 32 ^ (n + 1 - 1 - i) % 32) 0)
        = b32digits n (id / 32) := by
      rw [b32digits]
      apply List.map_congr_left
      intro i hi
      have hi' : i < n := List.mem_range.mp hi
      have hpow : (32 : Nat) * 32 ^ (n - 1 - i) = 32 ^ (n + 1 - 1 - i) := by
        rw [← pow_succ']
        congr 1
        omega
      rw [Nat.div_div_eq_div_mul, hpow]
    rw [hmap, textVal, List.foldl_append]
    have hdiv : id / 32 < 32 ^ n := by
      rw [Nat.div_lt_iff_lt_mul (by norm_num : 0 < 32)]
      calc id < 32 ^ (n + 1) := h
      _ = 32 ^ n * 32 := by rw [pow_succ]
    have hdig := ih (id / 32) hdiv
    rw [textVal] at hdig
    rw [hdig]
    have hidx : ∀ j < 32, crockfordAlphabet.indexOf (crockfordAlphabet.getD j 0) = j := by
      decide
    have hmod : id % 32 < 32 := Nat.mod_lt _ (by norm_num)
    simp only [List.map_cons, List.map_nil, List.foldl_cons, List.foldl_nil]
    rw [show n + 1 - 1 - n = 0 by omega, pow_zero, Nat.div_one, hidx _ hmod]
    omega

theorem ulidText_inj {id1 id2 : Nat} (h1 : id1 < 32 ^ 26) (h2 : id2 < 32 ^ 26)
    (h : ulidText id1 = ulidText id2) : id1 = id2 := by
  rw [← textVal_b32digits 26 id1 h1, ← textVal_b32digits 26 id2 h2]
  exact congrArg textVal h

theorem key_inj {a1 a2 t1 t2 : Bytes} (hlen : t1.length = t2.length)
    (h : a1 ++ 58 :: t1 = a2 ++ 58 :: t2) : a1 = a2 ∧ t1 = t2 := by
  have hlen2 : a1.length = a2.length := by
    have hl := congrArg List.length h
    simp only [List.length_append, List.length_cons] at hl
    omega
  obtain ⟨ha, ht⟩ := List.append_inj h hlen2
  refine ⟨ha, ?_⟩
  injection ht

theorem NewId_lt (e : Nat → Nat) {t : Nat} (h : ulidTimestamp t < 2 ^ 48) :
    NewId e t < 32 ^ 26 := by
  rw [NewId]
  have h2 : e t % 2 ^ 80 < 2 ^ 80 := Nat.mod_lt _ (by norm_num)
  have h3 : ulidTimestamp t * 2 ^ 80 + e t % 2 ^ 80 < (ulidTimestamp t + 1) * 2 ^ 80 := by
    rw [add_mul, one_mul]
    omega
  have h4 : (ulidTimestamp t + 1) * 2 ^ 80 ≤ 2 ^ 48 * 2 ^ 80 :=
    Nat.mul_le_mul_right _ h
  calc ulidTimestamp t * 2 ^ 80 + e t % 2 ^ 80
      < 2 ^ 48 * 2 ^ 80 := lt_of_lt_of_le h3 h4
    _ ≤ 32 ^ 26 := by norm_num

/-! ### Read loop lemmas -/

theorem readLoop_append_goError {s : BadgerEventStore} {b : JsonBytes}
    {bs2 : List JsonBytes} {ex : GoErr} : ∀ {bs1 : List JsonBytes},
    (∀ b' ∈ bs1, ∃ v, decodeRec s b' = .ok v) →
    decodeRec s b = .goError ex →
    readLoop s (bs1 ++ b :: bs2) = .goError ex := by
  intro bs1
  induction bs1 with
  | nil => intro _ herr; simp [readLoop, herr]
  | cons b0 rest ih =>
    intro hok herr
    obtain ⟨v0, hv0⟩ := hok b0 (List.mem_cons_self _ _)
    have htail := ih (fun b' hb' => hok b' (List.mem_cons_of_mem _ hb')) herr
    simp [readLoop, hv0, htail]

theorem readLoop_ok_length {s : BadgerEventStore} : ∀ {bs : List JsonBytes}
    {vs : List Val}, readLoop s bs = .ok vs → vs.length = bs.length := by
  intro bs
  induction bs with
  | nil => intro vs h; simp [readLoop] at h; simp [← h]
  | cons b rest ih =>
    intro vs h
    rw [readLoop] at h
    cases hd : decodeRec s b with
    | ok v =>
      rw [hd] at h
      cases ht : readLoop s rest with
      | ok vs' =>
        rw [ht] at h
        simp only [ROut.ok.injEq] at h
        subst h
        simp [ih ht]
      | goError ex => rw [ht] at h; simp at h
      | panicNewNil => rw [ht] at h; simp at h
    | goError ex => rw [hd] at h; simp at h
    | panicNewNil => rw [hd] at h; simp at h

/-! ### Append histories -/

/-- A history of `Append` calls: each entry is the aggregate, the content
value, and the `UnixNano` timestamp `time.Now()` returned for that call. -/
def runAppends (e : Nat → Nat) (s : BadgerEventStore)
    (ops : List (Bytes × Val × Nat)) : BadgerEventStore :=
  ops.foldl (fun s op => (Append e s op.1 op.2.1 op.2.2).2) s

/-- The storage key an `Append` call writes. -/
def keyOf (e : Nat → Nat) (op : Bytes × Val × Nat) : Bytes :=
  op.1 ++ 58 :: ulidText (NewId e op.2.2)

theorem Append_eq_of_registered (e : Nat → Nat) (s : BadgerEventStore)
    (d : DB) (A : Bytes) (v : Val) (now : Nat)
    (hdb : s.db = some d) (hreg : v.ty ∈ s.gobReg) :
    Append e s A v now =
      (.ok (), { s with db := some (setKV (A ++ 58 :: ulidText (NewId e now))
        (jsonMarshal ⟨NewId e now, now, v.ty, .wf v.ty v.data⟩) d) }) := by
  simp [Append, gobEncode, hreg, kvstore, hdb, typeName]

theorem Append_preserves (e : Nat → Nat) (s : BadgerEventStore) (A : Bytes)
    (v : Val) (now : Nat) :
    ((Append e s A v now).2).gobReg = s.gobReg ∧
    ((Append e s A v now).2).typeRegistery = s.typeRegistery ∧
    ((Append e s A v now).2).memoryOnly = s.memoryOnly := by
  cases h : gobEncode s.gobReg v with
  | error ex => simp [Append, h]
  | ok cB =>
    cases hdb : s.db with
    | some d => simp [Append, h, kvstore, hdb]
    | none => simp [Append, h, kvstore, hdb]

theorem Append_open {e : Nat → Nat} {s : BadgerEventStore} {A : Bytes}
    {v : Val} {now : Nat} (hdb : s.db = none) (hreg : v.ty ∈ s.gobReg) :
    Append e s A v now = Append e { s with db := some [] } A v now := by
  simp [Append, gobEncode, hreg, kvstore, hdb]

theorem runAppends_spec (e : Nat → Nat) : ∀ (ops : List (Bytes × Val × Nat))
    (s : BadgerEventStore) (d : DB),
    s.db = some d → DBSorted d →
    (∀ op ∈ ops, op.2.1.ty ∈ s.gobReg) →
    (∀ op ∈ ops, keyOf e op ∉ d.map Prod.fst) →
    (ops.map (keyOf e)).Pairwise (fun a b => a ≠ b) →
    ∃ d', (runAppends e s ops).db = some d' ∧ DBSorted d' ∧
      (d'.map Prod.fst).Perm (ops.map (keyOf e) ++ d.map Prod.fst) := by
  intro ops
  induction ops with
  | nil =>
    intro s d hdb hsort _ _ _
    exact ⟨d, by simp [runAppends, hdb], hsort, by simp⟩
  | cons op rest ih =>
    intro s d hdb hsort hreg hfresh hpw
    obtain ⟨A, v, now⟩ := op
    have hregv : v.ty ∈ s.gobReg := hreg _ (List.mem_cons_self _ _)
    have hstep := Append_eq_of_registered e s d A v now hdb hregv
    have hk : keyOf e (A, v, now) = A ++ 58 :: ulidText (NewId e now) := rfl
    have hfreshk : keyOf e (A, v, now) ∉ d.map Prod.fst :=
      hfresh _ (List.mem_cons_self _ _)
    have hperm0 := setKV_keys_perm
      (k := A ++ 58 :: ulidText (NewId e now))
      (v := jsonMarshal ⟨NewId e now, now, v.ty, .wf v.ty v.data⟩)
      (d := d) (hk ▸ hfreshk)
    have hrun : runAppends e s ((A, v, now) :: rest) =
        runAppends e ((Append e s A v now).2) rest := by
      simp [runAppends, List.foldl_cons]
    rw [hrun, hstep]
    have hpw' : List.Pairwise (fun a b => a ≠ b)
        (keyOf e (A, v, now) :: rest.map (keyOf e)) := by
      rw [List.map_cons] at hpw
      exact hpw
    have hpwtail := List.pairwise_cons.mp hpw'
    obtain ⟨d'', hdb'', hsort'', hperm''⟩ := ih
      { s with db := some (setKV (A ++ 58 :: ulidText (NewId e now))
          (jsonMarshal ⟨NewId e now, now, v.ty, .wf v.ty v.data⟩) d) }
      (setKV (A ++ 58 :: ulidText (NewId e now))
        (jsonMarshal ⟨NewId e now, now, v.ty, .wf v.ty v.data⟩) d)
      rfl (setKV_sorted hsort)
      (fun op hop => hreg op (List.mem_cons_of_mem _ hop))
      (fun op hop => by
        intro hmem
        rw [List.Perm.mem_iff hperm0] at hmem
        rcases List.mem_cons.mp hmem with heq | hmem'
        · rw [← hk] at heq
          exact (hpwtail.1 (keyOf e op) (List.mem_map_of_mem _ hop)) heq.symm
        · exact hfresh op (List.mem_cons_of_mem _ hop) hmem')
      hpwtail.2
    refine ⟨d'', hdb'', hsort'', ?_⟩
    have h1 : (rest.map (keyOf e) ++
        ((setKV (A ++ 58 :: ulidText (NewId e now))
          (jsonMarshal ⟨NewId e now, now, v.ty, .wf v.ty v.data⟩) d).map Prod.fst)).Perm
        (rest.map (keyOf e) ++ (keyOf e (A, v, now) :: d.map Prod.fst)) := by
      apply List.Perm.append_left
      rw [← hk] at hperm0
      exact hperm0
    have h2 := hperm''.trans h1
    have h3 := h2.trans (List.perm_middle)
    simpa using h3

/-! ### Operation result lemmas -/

theorem Read_result {s : BadgerEventStore} {d : DB} (hdb : s.db = some d)
    (hsort : DBSorted d) (B : Bytes) :
    (Read s B).1 =
      readLoop s ((d.filter (fun kv => startsWith (B ++ [58]) kv.1)).map Prod.snd) := by
  simp [Read, kvstore, hdb, seekScan_eq_filter _ _ hsort]

theorem ListKeysForAggregate_result {s : BadgerEventStore} {d : DB}
    (hdb : s.db = some d) (hsort : DBSorted d) (B : Bytes) :
    (ListKeysForAggregate s B).1 =
      .ok ((d.filter (fun kv => startsWith (B ++ [58]) kv.1)).map Prod.fst) := by
  simp [ListKeysForAggregate, kvstore, hdb, seekScan_eq_filter _ _ hsort]

theorem decodeRec_congr {s' s : BadgerEventStore}
    (h1 : s'.typeRegistery = s.typeRegistery) (h2 : s'.gobReg = s.gobReg)
    (b : JsonBytes) : decodeRec s' b = decodeRec s b := by
  cases b with
  | wf r => simp [decodeRec, jsonUnmarshal, makeInstance, h1, h2]
  | malformed n => simp [decodeRec, jsonUnmarshal]

theorem readLoop_congr {s' s : BadgerEventStore}
    (h1 : s'.typeRegistery = s.typeRegistery) (h2 : s'.gobReg = s.gobReg) :
    ∀ l, readLoop s' l = readLoop s l := by
  intro l
  induction l with
  | nil => rfl
  | cons b rest ih => rw [readLoop, readLoop, decodeRec_congr h1 h2, ih]

theorem map_fst_filter (P : Bytes → Bool) : ∀ (d : DB),
    (d.filter (fun kv => P kv.1)).map Prod.fst = (d.map Prod.fst).filter P := by
  intro d
  induction d with
  | nil => rfl
  | cons kv rest ih => cases hp : P kv.1 <;> simp [List.filter_cons, hp, ih]

/-! ### Concrete entropy functions used in the counterexamples -/

/-- A fixed entropy draw: the PRNG yields zero for every seed. -/
def entropyZero : Nat → Nat := fun _ => 0

/-- An entropy draw in which the seed from the earlier timestamp
`1000000100` happens to yield a larger 80-bit block than the seed from the
later timestamp in the same millisecond — an outcome the per-call reseeding
in `NewId` does nothing to rule out. -/
def entropyFlip : Nat → Nat := fun t => if t = 1000000100 then 1 else 0

/-! ### Claim theorems -/

/-- C1: for every registered type and value `v`, `Append` on a fresh
aggregate `A` (no stored key carries `A`'s scan prefix) succeeds, and the
following `Read A` returns exactly the one-element sequence `[v]` with no
error, the element structurally equal to `v`. -/
theorem c1_round_trip (e : Nat → Nat) (s : BadgerEventStore) (d : DB)
    (A : Bytes) (v : Val) (now : Nat)
    (hdb : s.db = some d) (hsort : DBSorted d)
    (hfresh : ∀ kv ∈ d, startsWith (A ++ [58]) kv.1 = false)
    (hty1 : v.ty ∈ s.typeRegistery) (hty2 : v.ty ∈ s.gobReg)
    (hms : ulidTimestamp now < 2 ^ 48) :
    (Append e s A v now).1 = .ok () ∧
    (Read (Append e s A v now).2 A).1 = .ok [v] := by
  have hstep := Append_eq_of_registered e s d A v now hdb hty2
  rw [hstep]
  refine ⟨rfl, ?_⟩
  have hkey : startsWith (A ++ [58]) (A ++ 58 :: ulidText (NewId e now)) = true := by
    have hassoc : A ++ 58 :: ulidText (NewId e now) =
        (A ++ [58]) ++ ulidText (NewId e now) := by simp
    rw [hassoc]
    exact startsWith_append _ _
  rw [Read_result rfl (setKV_sorted hsort) A, filter_setKV_pos hkey hfresh]
  simp [readLoop, decodeRec, jsonMarshal, jsonUnmarshal, makeInstance, hty1,
    gobDecode, hty2]

/-- C1 witness: a concrete registered value round-trips through a fresh
aggregate on an opened empty store. -/
theorem c1_round_trip_witness :
    (Append entropyZero ⟨true, some [], ["T"], ["T"]⟩ [97] ⟨"T", 5⟩ 1000000).1 = .ok () ∧
    (Read (Append entropyZero ⟨true, some [], ["T"], ["T"]⟩ [97] ⟨"T", 5⟩ 1000000).2 [97]).1 =
      .ok [⟨"T", 5⟩] :=
  c1_round_trip entropyZero ⟨true, some [], ["T"], ["T"]⟩ [] [97] ⟨"T", 5⟩ 1000000
    rfl List.Pairwise.nil (by simp) (by simp) (by simp) (by decide)

/-- C2 (failing evaluation): two successful `Append`s to the same aggregate
whose `time.Now()` values coincide (`UnixNano = 1000000` twice) leave only
the second record: `Read` returns `[v2]`, not `[v1, v2]` as the claim
requires, because both calls generate the same identifier and key. -/
theorem c2_failing_eval :
    (Append entropyZero (Register MemoryStore ⟨"T", 0⟩) [97] ⟨"T", 1⟩ 1000000).1 = .ok () ∧
    (Append entropyZero (Append entropyZero (Register MemoryStore ⟨"T", 0⟩)
      [97] ⟨"T", 1⟩ 1000000).2 [97] ⟨"T", 2⟩ 1000000).1 = .ok () ∧
    (Read (Append entropyZero (Append entropyZero (Register MemoryStore ⟨"T", 0⟩)
      [97] ⟨"T", 1⟩ 1000000).2 [97] ⟨"T", 2⟩ 1000000).2 [97]).1 = .ok [⟨"T", 2⟩] := by
  decide

/-- C3 (failing evaluation): two timestamps in the same millisecond,
`t1 = 1000000100 < t2 = 1000000200` (nanoseconds), for which the freshly
seeded entropy draw of the earlier call exceeds that of the later call:
`NewId` is then strictly decreasing, both numerically and in the sort order
of the 26-character text encoding. -/
theorem c3_failing_eval :
    1000000100 < 1000000200 ∧
    NewId entropyFlip 1000000200 < NewId entropyFlip 1000000100 ∧
    lexLt (ulidText (NewId entropyFlip 1000000200))
      (ulidText (NewId entropyFlip 1000000100)) = true := by
  decide

/-- C4 (failing evaluation): two successful `Append`s to different
aggregates at the same `time.Now()` instant store two records carrying the
same identifier `NewId entropyZero 1000000` — identifiers are not unique
across the store's lifetime. -/
theorem c4_failing_eval :
    (Append entropyZero (Register MemoryStore ⟨"T", 0⟩) [97] ⟨"T", 1⟩ 1000000).1 = .ok () ∧
    (Append entropyZero (Append entropyZero (Register MemoryStore ⟨"T", 0⟩)
      [97] ⟨"T", 1⟩ 1000000).2 [98] ⟨"T", 2⟩ 1000000).1 = .ok () ∧
    (Append entropyZero (Append entropyZero (Register MemoryStore ⟨"T", 0⟩)
      [97] ⟨"T", 1⟩ 1000000).2 [98] ⟨"T", 2⟩ 1000000).2.db =
      some [([97] ++ 58 :: ulidText (NewId entropyZero 1000000),
              jsonMarshal ⟨NewId entropyZero 1000000, 1000000, "T", .wf "T" 1⟩),
            ([98] ++ 58 :: ulidText (NewId entropyZero 1000000),
              jsonMarshal ⟨NewId entropyZero 1000000, 1000000, "T", .wf "T" 2⟩)] := by
  decide

/-- C5 counterexample: aggregate names may contain the separator byte 58
(the character of code 58).  Appending to aggregate `[97, 58, 98]` changes
`Read [97]` from `.ok []` to `.ok [v]`, so "appending to A never changes
Read(B) for distinct A, B" is false as stated. -/
theorem c5_counterexample :
    (Read (Register MemoryStore ⟨"T", 0⟩) [97]).1 = .ok [] ∧
    (Append entropyZero (Register MemoryStore ⟨"T", 0⟩) [97, 58, 98] ⟨"T", 1⟩ 1000000).1 = .ok () ∧
    (Read (Append entropyZero (Register MemoryStore ⟨"T", 0⟩)
      [97, 58, 98] ⟨"T", 1⟩ 1000000).2 [97]).1 = .ok [⟨"T", 1⟩] := by
  decide

/-- C5 amended: appending to `A` never changes `Read B` or the key scan of
`B` provided `B ++ [58]` is not a prefix of `A ++ [58]` — which holds for
all distinct names not containing the separator byte 58, in particular for
proper-prefix pairs such as "order" and "order-2". -/
theorem c5_isolation (e : Nat → Nat) (s : BadgerEventStore) (d : DB)
    (A B : Bytes) (v : Val) (now : Nat)
    (hdb : s.db = some d) (hsort : DBSorted d)
    (hAB : startsWith (B ++ [58]) (A ++ [58]) = false) :
    (Read (Append e s A v now).2 B).1 = (Read s B).1 ∧
    (ListKeysForAggregate (Append e s A v now).2 B).1 =
      (ListKeysForAggregate s B).1 := by
  cases henc : gobEncode s.gobReg v with
  | error ex =>
    have hsame : (Append e s A v now).2 = s := by simp [Append, henc]
    rw [hsame]
    exact ⟨rfl, rfl⟩
  | ok cB =>
    have hty2 : v.ty ∈ s.gobReg := by
      by_contra hc
      simp [gobEncode, hc] at henc
    have hstep := Append_eq_of_registered e s d A v now hdb hty2
    rw [hstep]
    have hnk : startsWith (B ++ [58]) (A ++ 58 :: ulidText (NewId e now)) = false := by
      cases hc : startsWith (B ++ [58]) (A ++ 58 :: ulidText (NewId e now)) with
      | false => rfl
      | true =>
        have hmk := startsWith_snoc_avoid (ulidText_no_colon (NewId e now)) hc
        rw [hAB] at hmk
        exact absurd hmk (by simp)
    constructor
    · rw [Read_result rfl (setKV_sorted hsort) B, Read_result hdb hsort B,
        filter_setKV_neg hnk]
      refine readLoop_congr ?_ ?_ _ <;> rfl
    · rw [ListKeysForAggregate_result rfl (setKV_sorted hsort) B,
        ListKeysForAggregate_result hdb hsort B, filter_setKV_neg hnk]

/-- C5 witness: with separator-free distinct aggregates `[97]` and `[98]`,
an append to the first leaves the second's read and key scan unchanged. -/
theorem c5_isolation_witness :
    (Read (Append entropyZero ⟨true, some [], ["T"], ["T"]⟩ [97] ⟨"T", 1⟩ 1000000).2 [98]).1 =
      (Read ⟨true, some [], ["T"], ["T"]⟩ [98]).1 ∧
    (ListKeysForAggregate (Append entropyZero ⟨true, some [], ["T"], ["T"]⟩
      [97] ⟨"T", 1⟩ 1000000).2 [98]).1 =
      (ListKeysForAggregate ⟨true, some [], ["T"], ["T"]⟩ [98]).1 :=
  c5_isolation entropyZero ⟨true, some [], ["T"], ["T"]⟩ [] [97] [98] ⟨"T", 1⟩ 1000000
    rfl List.Pairwise.nil (by decide)

/-- C6 (failing evaluation): appending a value of an unregistered type does
return an error (the gob-encode half of the claim holds), but reading a
stored record whose `Type` tag has no `typeRegistery` entry does not return
an error: `makeInstance` evaluates `reflect.New(nil)`, which panics. -/
theorem c6_failing_eval :
    (Append entropyZero MemoryStore [97] ⟨"U", 1⟩ 1000000).1 =
      .error .gobNotRegistered ∧
    (Read { memoryOnly := true,
            db := some [([97] ++ 58 :: ulidText 0, jsonMarshal ⟨0, 0, "T", .wf "T" 3⟩)],
            typeRegistery := [], gobReg := ["T"] } [97]).1 = .panicNewNil := by
  decide

/-- C7 counterexample: a stored aggregate whose second record carries an
unregistered type tag makes `Read` panic (`reflect.New(nil)`) rather than
return an error, and the successfully decoded first record is not returned
either — the claim's "returns an error" is false for type-resolution
failures. -/
theorem c7_counterexample :
    (Read { memoryOnly := true,
            db := some [([97] ++ 58 :: ulidText 1, jsonMarshal ⟨1, 0, "T", .wf "T" 1⟩),
                        ([97] ++ 58 :: ulidText 2, jsonMarshal ⟨2, 0, "U", .wf "U" 2⟩)],
            typeRegistery := ["T"], gobReg := ["T"] } [97]).1 = .panicNewNil := by
  decide

/-- C7 amended: when the first failing record of an aggregate's scan fails
by envelope (json) or payload (gob) decoding — a returned Go error, not the
type-resolution panic — `Read` aborts at that record and returns exactly
that error, never a partial list of the earlier successfully decoded
values. -/
theorem c7_read_abort (s : BadgerEventStore) (d : DB) (A : Bytes)
    (bs1 bs2 : List JsonBytes) (b : JsonBytes) (ex : GoErr)
    (hdb : s.db = some d)
    (hsplit : (seekScan (A ++ [58]) d).map Prod.snd = bs1 ++ b :: bs2)
    (hok : ∀ b' ∈ bs1, ∃ v, decodeRec s b' = .ok v)
    (herr : decodeRec s b = .goError ex) :
    (Read s A).1 = .goError ex := by
  have hres : (Read s A).1 = readLoop s ((seekScan (A ++ [58]) d).map Prod.snd) := by
    simp [Read, kvstore, hdb]
  rw [hres, hsplit]
  exact readLoop_append_goError hok herr

/-- C7 witness: a single malformed stored value makes `Read` return the
json unmarshalling error and no list. -/
theorem c7_read_abort_witness :
    (Read ⟨true, some [([97, 58, 48], .malformed 0)], [], []⟩ [97]).1 =
      .goError .jsonErr :=
  c7_read_abort ⟨true, some [([97, 58, 48], .malformed 0)], [], []⟩
    [([97, 58, 48], .malformed 0)] [97] [] [] (.malformed 0) .jsonErr
    rfl (by decide) (by simp) rfl

/-- C8 counterexample: two successful `Append`s whose `time.Now()` values
coincide write the same key, so `ListKeys` afterwards holds one key while
the claim requires its length to equal the two appends. -/
theorem c8_counterexample :
    (Append entropyZero (Register MemoryStore ⟨"T", 0⟩) [97] ⟨"T", 1⟩ 1000000).1 = .ok () ∧
    (Append entropyZero (Append entropyZero (Register MemoryStore ⟨"T", 0⟩)
      [97] ⟨"T", 1⟩ 1000000).2 [97] ⟨"T", 2⟩ 1000000).1 = .ok () ∧
    (ListKeys (runAppends entropyZero (Register MemoryStore ⟨"T", 0⟩)
        [([97], ⟨"T", 1⟩, 1000000), ([97], ⟨"T", 2⟩, 1000000)])).1 =
      .ok [[97] ++ 58 :: ulidText (NewId entropyZero 1000000)] := by
  decide

/-- C8 amended: starting from a newly created store, a history of
successful registered `Append` calls whose generated identifiers are
pairwise distinct yields `ListKeys` of length equal to the number of
appends, and for every aggregate `A`, `ListKeysForAggregate A` returns
exactly the listed keys that begin with `A ++ [58]`.  (Identifier
collisions — same-timestamp appends — overwrite records and break the
count, as the counterexample shows.) -/
theorem c8_key_listing (e : Nat → Nat) (s : BadgerEventStore)
    (ops : List (Bytes × Val × Nat))
    (hdb : s.db = none)
    (hreg : ∀ op ∈ ops, op.2.1.ty ∈ s.gobReg)
    (hms : ∀ op ∈ ops, ulidTimestamp op.2.2 < 2 ^ 48)
    (hids : (ops.map (fun op => NewId e op.2.2)).Pairwise (fun a b => a ≠ b)) :
    ∃ ks, (ListKeys (runAppends e s ops)).1 = .ok ks ∧
      ks.length = ops.length ∧
      ∀ A, (ListKeysForAggregate (runAppends e s ops) A).1 =
        .ok (ks.filter (startsWith (A ++ [58]))) := by
  have hkeys : (ops.map (keyOf e)).Pairwise (fun a b => a ≠ b) := by
    rw [List.pairwise_map] at hids ⊢
    refine hids.imp_of_mem ?_
    intro op1 op2 h1 h2 hne heq
    apply hne
    have hlen : (ulidText (NewId e op1.2.2)).length =
        (ulidText (NewId e op2.2.2)).length := by
      rw [ulidText_length, ulidText_length]
    obtain ⟨-, htext⟩ := key_inj hlen heq
    exact ulidText_inj (NewId_lt e (hms op1 h1)) (NewId_lt e (hms op2 h2)) htext
  cases ops with
  | nil =>
    refine ⟨[], ?_, rfl, ?_⟩
    · simp [runAppends, ListKeys, kvstore, hdb]
    · intro A
      simp [runAppends, ListKeysForAggregate, kvstore, hdb, seekScan]
  | cons op rest =>
    have hbr : runAppends e s (op :: rest) =
        runAppends e { s with db := some [] } (op :: rest) := by
      simp only [runAppends, List.foldl_cons]
      rw [Append_open hdb (hreg op (List.mem_cons_self _ _))]
    rw [hbr]
    obtain ⟨d', hdb', hsort', hperm'⟩ := runAppends_spec e (op :: rest)
      { s with db := some [] } [] rfl List.Pairwise.nil
      (fun op' h => hreg op' h) (fun op' h => by simp) hkeys
    refine ⟨d'.map Prod.fst, ?_, ?_, ?_⟩
    · simp [ListKeys, kvstore, hdb']
    · have hlen := hperm'.length_eq
      simp only [List.length_map, List.append_nil] at hlen ⊢
      simpa using hlen
    · intro A
      rw [ListKeysForAggregate_result hdb' hsort' A]
      rw [map_fst_filter]

/-- C8 witness: two registered appends with distinct millisecond
timestamps produce two listed keys, exactly split by the aggregate
scans. -/
theorem c8_key_listing_witness :
    ∃ ks, (ListKeys (runAppends entropyZero ⟨true, none, ["T"], ["T"]⟩
        [([97], ⟨"T", 1⟩, 1000000), ([98], ⟨"T", 2⟩, 2000000)])).1 = .ok ks ∧
      ks.length = [([97], (⟨"T", 1⟩ : Val), 1000000), ([98], ⟨"T", 2⟩, 2000000)].length ∧
      ∀ A, (ListKeysForAggregate (runAppends entropyZero ⟨true, none, ["T"], ["T"]⟩
        [([97], ⟨"T", 1⟩, 1000000), ([98], ⟨"T", 2⟩, 2000000)]) A).1 =
        .ok (ks.filter (startsWith (A ++ [58]))) :=
  c8_key_listing entropyZero ⟨true, none, ["T"], ["T"]⟩
    [([97], ⟨"T", 1⟩, 1000000), ([98], ⟨"T", 2⟩, 2000000)]
    rfl (by decide) (by decide) (by decide)

/-- C9: `Close` is idempotent — the first call succeeds, a second call on
the closed store succeeds as well and leaves the state unchanged. -/
theorem c9_close_idempotent (s : BadgerEventStore) :
    (Close s).1 = .ok () ∧
    (Close (Close s).2).1 = .ok () ∧
    (Close (Close s).2).2 = (Close s).2 := by
  cases hdb : s.db with
  | none => simp [Close, hdb]
  | some d => simp [Close, hdb]

/-- C10: after `Close`, the handle is nil and every operation transparently
re-opens a fresh engine via the lazy `kvstore` initializer rather than
failing with a store-closed error; for the in-memory store the reopened
keyspace is empty, so previously appended records are gone and a registered
`Append` succeeds as on a newly created store. -/
theorem c10_reopen_after_close (e : Nat → Nat) (s : BadgerEventStore)
    (A : Bytes) (v : Val) (now : Nat)
    (hmem : s.memoryOnly = true) (hreg : v.ty ∈ s.gobReg) :
    ((Close s).2).db = none ∧
    (Read (Close s).2 A).1 = .ok [] ∧
    (ListKeys (Close s).2).1 = .ok [] ∧
    (ListKeysForAggregate (Close s).2 A).1 = .ok [] ∧
    (Append e (Close s).2 A v now).1 = .ok () := by
  have hdbn : ((Close s).2).db = none := by
    cases hdb : s.db with
    | none => simp [Close, hdb]
    | some d => simp [Close, hdb]
  have hreg' : v.ty ∈ ((Close s).2).gobReg := by
    cases hdb : s.db with
    | none => simpa [Close, hdb] using hreg
    | some d => simpa [Close, hdb] using hreg
  refine ⟨hdbn, ?_, ?_, ?_, ?_⟩
  · simp [Read, kvstore, hdbn, seekScan, readLoop]
  · simp [ListKeys, kvstore, hdbn]
  · simp [ListKeysForAggregate, kvstore, hdbn, seekScan]
  · simp [Append, gobEncode, hreg', kvstore, hdbn]

/-- C10 witness: a concrete in-memory store holding one record loses it
across `Close`, and all operations proceed on the reopened empty engine. -/
theorem c10_reopen_after_close_witness :
    ((Close ⟨true, some [([97] ++ 58 :: ulidText 5, jsonMarshal ⟨5, 0, "T", .wf "T" 9⟩)],
      ["T"], ["T"]⟩).2).db = none ∧
    (Read (Close ⟨true, some [([97] ++ 58 :: ulidText 5, jsonMarshal ⟨5, 0, "T", .wf "T" 9⟩)],
      ["T"], ["T"]⟩).2 [97]).1 = .ok [] ∧
    (ListKeys (Close ⟨true, some [([97] ++ 58 :: ulidText 5, jsonMarshal ⟨5, 0, "T", .wf "T" 9⟩)],
      ["T"], ["T"]⟩).2).1 = .ok [] ∧
    (ListKeysForAggregate (Close ⟨true, some [([97] ++ 58 :: ulidText 5,
      jsonMarshal ⟨5, 0, "T", .wf "T" 9⟩)], ["T"], ["T"]⟩).2 [97]).1 = .ok [] ∧
    (Append entropyZero (Close ⟨true, some [([97] ++ 58 :: ulidText 5,
      jsonMarshal ⟨5, 0, "T", .wf "T" 9⟩)], ["T"], ["T"]⟩).2 [97] ⟨"T", 7⟩ 1000000).1 = .ok () :=
  c10_reopen_after_close entropyZero
    ⟨true, some [([97] ++ 58 :: ulidText 5, jsonMarshal ⟨5, 0, "T", .wf "T" 9⟩)], ["T"], ["T"]⟩
    [97] ⟨"T", 7⟩ 1000000 rfl (by simp)

end EventStore
